import Mathlib

/-!
Verification of the LangChain turn adapter
(`genai_processors/contrib/langchain_model.py`).

The adapter buffers one turn of content parts, groups consecutive
same-role parts into LangChain messages (collapsing a lone text block to
a bare string), optionally prepends a configured system instruction,
optionally renders a prompt template, calls the model's streaming entry
point and re-emits each chunk as a `text/plain` part with role `model`.

The `content_api` helpers (`ProcessorPart`, `is_text`, `is_image`) live
outside the verified source tree, so they are modelled from the
specification's data model; everything else is a direct shallow
embedding of the Python source.
-/

namespace LangchainAdapter

/-- Modelled from the spec: a Content Part (`content_api.ProcessorPart`,
not part of the verified sources) holds a MIME type, a role tag
(`user`, `model`, `system`, or the empty string when unset - the unset
role is its own distinct value for grouping), optional text, optional
raw bytes (empty list when absent; each byte is a `Nat` below 256), and
a metadata mapping. -/
structure ProcessorPart where
  mimetype : String
  role : String
  text : String
  bytes : List Nat
  metadata : List (String × String)
deriving DecidableEq, Repr

/-- Modelled from the spec: `content_api.is_text` classifies a MIME type
as text when it is of the form `text/*`. -/
def is_text (mimetype : String) : Bool :=
  "text/".data.isPrefixOf mimetype.data

/-- Modelled from the spec: `content_api.is_image` classifies a MIME
type as image when it is of the form `image/*`. -/
def is_image (mimetype : String) : Bool :=
  "image/".data.isPrefixOf mimetype.data

/-! ### Standard base64 (shallow embedding of `base64.b64encode`) -/

/-- Character of the standard base64 alphabet at index `n < 64`. -/
def b64Char (n : Nat) : Char :=
  if n < 26 then Char.ofNat (65 + n)
  else if n < 52 then Char.ofNat (97 + (n - 26))
  else if n < 62 then Char.ofNat (48 + (n - 52))
  else if n = 62 then '+'
  else '/'

/-- Index of a standard base64 alphabet character. -/
def b64Val (c : Char) : Nat :=
  if 65 ≤ c.toNat ∧ c.toNat ≤ 90 then c.toNat - 65
  else if 97 ≤ c.toNat ∧ c.toNat ≤ 122 then c.toNat - 97 + 26
  else if 48 ≤ c.toNat ∧ c.toNat ≤ 57 then c.toNat - 48 + 52
  else if c = '+' then 62
  else 63

/-- Standard base64 encoding of a byte list, with `=` padding
(the behaviour of Python's `base64.b64encode`). -/
def b64encode : List Nat → List Char
  | [] => []
  | [a] => [b64Char (a / 4), b64Char (a % 4 * 16), '=', '=']
  | [a, b] =>
      [b64Char (a / 4), b64Char (a % 4 * 16 + b / 16), b64Char (b % 16 * 4), '=']
  | a :: b :: c :: rest =>
      b64Char (a / 4) :: b64Char (a % 4 * 16 + b / 16) ::
        b64Char (b % 16 * 4 + c / 64) :: b64Char (c % 64) :: b64encode rest

/-- Standard base64 decoding (inverse of `b64encode`), used to state the
round-trip property. -/
def b64decode : List Char → List Nat
  | c1 :: c2 :: c3 :: c4 :: rest =>
      if c3 = '=' then
        [b64Val c1 * 4 + b64Val c2 / 16]
      else if c4 = '=' then
        [b64Val c1 * 4 + b64Val c2 / 16, b64Val c2 % 16 * 16 + b64Val c3 / 4]
      else
        (b64Val c1 * 4 + b64Val c2 / 16) ::
          (b64Val c2 % 16 * 16 + b64Val c3 / 4) ::
          (b64Val c3 % 4 * 64 + b64Val c4) :: b64decode rest
  | _ => []

/-- Base64 of a byte list as a `String`
(`base64.b64encode(bytes).decode('utf-8')`). -/
def b64encodeStr (bs : List Nat) : String :=
  String.mk (b64encode bs)

/-! ### LangChain message model -/

/-- The three LangChain message classes the adapter produces
(`SystemMessage`, `AIMessage`, `HumanMessage`). -/
inductive MessageClass where
  | system
  | ai
  | human
deriving DecidableEq, Repr

/-- A typed content block: `{'type': 'text', 'text': t}` or
`{'type': 'image_url', 'image_url': {'url': u}}`. -/
inductive ContentBlock where
  | text (t : String)
  | imageUrl (url : String)
deriving DecidableEq, Repr

/-- Message content: either a bare string or a list of typed blocks. -/
inductive MessageContent where
  | str (s : String)
  | blocks (bs : List ContentBlock)
deriving DecidableEq, Repr

/-- A LangChain message as the adapter builds it: a class, content, and
the optional `metadata` entry of `additional_kwargs` (`none` when the
message was built without one, as for the prepended system
instruction). -/
structure LCMessage where
  cls : MessageClass
  content : MessageContent
  metadata : Option (List (String × String))
deriving DecidableEq, Repr

/-- The role-to-message-class dictionary lookup in `flush`:
`{'system': SystemMessage, 'model': AIMessage}.get(last_role, HumanMessage)`
(where `last_role` is `None` only before the first part). -/
def roleClass : Option String → MessageClass
  | some s =>
      if s = "system" then MessageClass.system
      else if s = "model" then MessageClass.ai
      else MessageClass.human
  | none => MessageClass.human

/-- The content-block conversion in the loop body of
`_convert_to_langchain_messages`: text parts give a text block, image
parts with non-empty bytes give a data-URI block, anything else raises
(`none`). -/
def partToBlock (p : ProcessorPart) : Option ContentBlock :=
  if is_text p.mimetype then
    some (ContentBlock.text p.text)
  else if is_image p.mimetype ∧ p.bytes ≠ [] then
    some (ContentBlock.imageUrl
      ("data:" ++ p.mimetype ++ ";base64," ++ b64encodeStr p.bytes))
  else
    none

/-- The single-text-block collapse in `flush`: a group whose only block
is a text block becomes a bare string, every other group stays a block
list. -/
def collapseBlocks : List ContentBlock → MessageContent
  | [ContentBlock.text t] => MessageContent.str t
  | bs => MessageContent.blocks bs

/-- The mutable state of `_convert_to_langchain_messages`: accumulated
messages, the pending block buffer, the last seen role (`none` before
the first part) and the last seen part. -/
structure ConvState where
  messages : List LCMessage
  content_parts : List ContentBlock
  last_role : Option String
  last_part : Option ProcessorPart

/-- The nested `flush()` closure: if the block buffer is non-empty,
append a message of the class given by `last_role`, with collapsed
content and the metadata of `last_part`, then clear the buffer. -/
def flush (st : ConvState) : ConvState :=
  if st.content_parts = [] then st
  else
    { st with
      messages := st.messages ++
        [{ cls := roleClass st.last_role,
           content := collapseBlocks st.content_parts,
           metadata := some (match st.last_part with
             | some p => p.metadata
             | none => []) }],
      content_parts := [] }

/-- The flush guard in the loop:
`part.role != last_role and last_role is not None`. -/
def roleChanged (last_role : Option String) (r : String) : Bool :=
  (some r != last_role) && last_role.isSome

/-- The `for part in parts` loop of `_convert_to_langchain_messages`:
convert the part to a block (raising - `none` - on unsupported input),
flush on a role change, append the block and remember role and part. -/
def convLoop (st : ConvState) : List ProcessorPart → Option ConvState
  | [] => some st
  | p :: ps =>
      match partToBlock p with
      | none => none
      | some blk =>
          let st1 := if roleChanged st.last_role p.role then flush st else st
          convLoop
            { st1 with
              content_parts := st1.content_parts ++ [blk],
              last_role := some p.role,
              last_part := some p } ps

/-- `_convert_to_langchain_messages`: run the loop from the empty state,
final flush, return the messages (`none` models the raised
`ValueError` on unsupported input). -/
def convertToLangchainMessages (parts : List ProcessorPart) :
    Option (List LCMessage) :=
  (convLoop ⟨[], [], none, none⟩ parts).map (fun st => (flush st).messages)

/-! ### The adapter's `call` -/

/-- One streamed chunk from the model, exposing a `.content` text
attribute. -/
structure Chunk where
  content : String

/-- The payload handed to `llm.astream`: either the raw message list or
the single-key mapping built from a rendered template. -/
inductive Payload where
  | msgs (ms : List LCMessage)
  | input (s : String)

/-- The external chat model: an optional declared `model` name
attribute, the implementation's type name, and its streaming entry
point (the chunk sequence it yields for a payload). -/
structure LLM where
  model : Option String
  typeName : String
  astream : Payload → List Chunk

/-- `getattr(self.llm, 'model', type(self.llm).__name__)`. -/
def modelId (llm : LLM) : String :=
  match llm.model with
  | some n => n
  | none => llm.typeName

/-- The adapter's configuration as set up by `__init__`:
`self.llm`, `self.system_instruction = system_instruction or ''`, and
`self.prompt_template`. Modelled from the spec: template rendering
(`ChatPromptTemplate.format`, an external collaborator) substitutes the
message list into the template, represented abstractly as a function
from the message list to the rendered string. -/
structure LangChainModel where
  llm : LLM
  system_instruction : String
  prompt_template : Option (List LCMessage → String)

/-- `LangChainModel.__init__`: store the model, replace an absent
system instruction by the empty string (`system_instruction or ''`),
and build the template only when a non-empty template string was
given. -/
def mkLangChainModel (llm : LLM) (system_instruction : Option String)
    (prompt_template : Option (List LCMessage → String)) : LangChainModel :=
  { llm := llm,
    system_instruction :=
      match system_instruction with
      | some s => s
      | none => "",
    prompt_template := prompt_template }

/-- The message list passed onward by `call`: the converted turn, with
the configured system instruction inserted at position 0 when it is
non-empty (`if self.system_instruction: msgs.insert(0, ...)`). -/
def builtMessages (m : LangChainModel) (parts : List ProcessorPart) :
    Option (List LCMessage) :=
  (convertToLangchainMessages parts).map (fun msgs =>
    if m.system_instruction ≠ "" then
      { cls := MessageClass.system,
        content := MessageContent.str m.system_instruction,
        metadata := none } :: msgs
    else msgs)

/-- The payload selection in `call`: template rendering wrapped as
`{'input': rendered}` when a template is configured, else the raw
message list. -/
def mkPayload (m : LangChainModel) (msgs : List LCMessage) : Payload :=
  match m.prompt_template with
  | some f => Payload.input (f msgs)
  | none => Payload.msgs msgs

/-- The output part built for one chunk:
`ProcessorPart(chunk.content, mimetype='text/plain', role='model',
metadata={'model': model_name})`. -/
def chunkPart (m : LangChainModel) (ch : Chunk) : ProcessorPart :=
  { mimetype := "text/plain",
    role := "model",
    text := ch.content,
    bytes := [],
    metadata := [("model", modelId m.llm)] }

/-- `LangChainModel.call`: buffer the turn, convert it (propagating the
unsupported-input error as `none`), prepend the system instruction,
build the payload, stream the model and emit one part per chunk. -/
def LangChainModel.call (m : LangChainModel) (parts : List ProcessorPart) :
    Option (List ProcessorPart) :=
  (builtMessages m parts).map (fun msgs =>
    (m.llm.astream (mkPayload m msgs)).map (chunkPart m))

/-! ### Specification-side grouping

The following definitions restate §3/§4 of the specification in its own
words - maximal runs of consecutive equal roles, one message per run -
to be compared with the embedded conversion. -/

/-- Maximal runs of consecutive parts with equal `role` values, in
order (the spec's message groups). -/
def roleRuns : List ProcessorPart → List (List ProcessorPart)
  | [] => []
  | p :: ps =>
      match roleRuns ps with
      | [] => [[p]]
      | [] :: rest => [p] :: rest
      | (q :: qs) :: rest =>
          if p.role = q.role then (p :: q :: qs) :: rest
          else [p] :: (q :: qs) :: rest

/-- The spec's message for one non-empty run: class from the run's
role, the run's blocks in order (collapsed per §3's invariant), and the
metadata of the run's last part. -/
def specRunMessage : List ProcessorPart → Option LCMessage
  | [] => none
  | p :: ps =>
      some
        { cls := roleClass (some p.role),
          content := collapseBlocks ((p :: ps).filterMap partToBlock),
          metadata := some (ps.getLastD p).metadata }

/-- The spec's message list for a turn: one message per role run. -/
def specMessages (parts : List ProcessorPart) : List LCMessage :=
  (roleRuns parts).filterMap specRunMessage

/-- Count of adjacent part pairs whose roles differ (the spec's
message-group boundaries). -/
def roleBoundaries (parts : List ProcessorPart) : Nat :=
  (parts.zip parts.tail).countP (fun ab => ab.1.role ≠ ab.2.role)

/-! ### Proof-internal helpers -/

/-- Total block conversion, equal to `partToBlock` on supported
parts. -/
def blockOf (p : ProcessorPart) : ContentBlock :=
  (partToBlock p).getD (ContentBlock.text "")

/-- The message `flush` appends for a run with role `r`, block buffer
`blocks` and last part `lp`. -/
def mkMsg (r : String) (blocks : List ContentBlock) (lp : ProcessorPart) :
    LCMessage :=
  { cls := roleClass (some r),
    content := collapseBlocks blocks,
    metadata := some lp.metadata }

/-- Messages produced from a pending run (buffer `blocks`, role `r`,
last part `lp`) followed by the remaining parts `ps`: the bridge
between the imperative loop and the run decomposition. -/
def runsMsgs : List ContentBlock → String → ProcessorPart →
    List ProcessorPart → List LCMessage
  | blocks, r, lp, [] => [mkMsg r blocks lp]
  | blocks, r, lp, p :: ps =>
      if p.role = r then runsMsgs (blocks ++ [blockOf p]) r p ps
      else mkMsg r blocks lp :: runsMsgs [blockOf p] p.role p ps

/-! ### Helper lemmas -/

theorem partToBlock_eq_blockOf (p : ProcessorPart)
    (h : (partToBlock p).isSome) : partToBlock p = some (blockOf p) := by
  cases hp : partToBlock p with
  | none => rw [hp] at h; simp at h
  | some b => simp [blockOf, hp]

theorem filterMap_partToBlock_eq_map (l : List ProcessorPart)
    (h : ∀ p ∈ l, (partToBlock p).isSome) :
    l.filterMap partToBlock = l.map blockOf := by
  induction l with
  | nil => rfl
  | cons p ps ih =>
      have hp := partToBlock_eq_blockOf p (h p (by simp))
      simp only [List.filterMap_cons, hp, List.map_cons]
      rw [ih (fun q hq => h q (by simp [hq]))]

theorem is_text_eq_false_of_is_image (m : String)
    (h : is_image m = true) : is_text m = false := by
  unfold is_image at h
  unfold is_text
  rw [show "image/".data = 'i' :: "mage/".data from rfl] at h
  rw [show "text/".data = 't' :: "ext/".data from rfl]
  cases hd : m.data with
  | nil => rw [hd] at h; simp [List.isPrefixOf] at h
  | cons c cs =>
      rw [hd] at h
      simp only [List.isPrefixOf, Bool.and_eq_true, beq_iff_eq] at h
      simp only [List.isPrefixOf, Bool.and_eq_false_iff, beq_eq_false_iff_ne,
        ne_eq]
      exact Or.inl (fun ht => absurd (h.1.trans ht.symm) (by decide))

theorem collapseBlocks_cases (bs : List ContentBlock) :
    (∃ t, bs = [ContentBlock.text t] ∧
        collapseBlocks bs = MessageContent.str t) ∨
    ((∀ t, bs ≠ [ContentBlock.text t]) ∧
        collapseBlocks bs = MessageContent.blocks bs) := by
  match bs with
  | [] => exact Or.inr ⟨by simp, rfl⟩
  | [ContentBlock.text t] => exact Or.inl ⟨t, rfl, rfl⟩
  | [ContentBlock.imageUrl u] => exact Or.inr ⟨by simp, rfl⟩
  | a :: b :: l =>
      refine Or.inr ⟨by simp, ?_⟩
      cases a <;> rfl

theorem convLoop_none (ps : List ProcessorPart) :
    ∀ (st : ConvState) (p : ProcessorPart), p ∈ ps →
      partToBlock p = none → convLoop st ps = none := by
  induction ps with
  | nil => intro st p hp _; simp at hp
  | cons q qs ih =>
      intro st p hp hnone
      rcases List.mem_cons.mp hp with h | h
      · subst h; simp [convLoop, hnone]
      · cases hq : partToBlock q with
        | none => simp [convLoop, hq]
        | some b =>
            simp only [convLoop, hq]
            exact ih _ p h hnone

theorem roleRuns_cons (p : ProcessorPart) (ps : List ProcessorPart) :
    roleRuns (p :: ps) =
      match roleRuns ps with
      | [] => [[p]]
      | [] :: rest => [p] :: rest
      | (q :: qs) :: rest =>
          if p.role = q.role then (p :: q :: qs) :: rest
          else [p] :: (q :: qs) :: rest := rfl

theorem roleRuns_cons_form (p : ProcessorPart) (ps : List ProcessorPart) :
    ∃ qs rest, roleRuns (p :: ps) = (p :: qs) :: rest := by
  cases h : roleRuns ps with
  | nil => exact ⟨[], [], by simp [roleRuns, h]⟩
  | cons run rest =>
      cases run with
      | nil => exact ⟨[], rest, by simp [roleRuns, h]⟩
      | cons q qs =>
          by_cases hr : p.role = q.role
          · exact ⟨q :: qs, rest, by simp [roleRuns, h, hr]⟩
          · exact ⟨[], (q :: qs) :: rest, by simp [roleRuns, h, hr]⟩

theorem roleRuns_ne_nil (parts : List ProcessorPart) :
    ∀ run ∈ roleRuns parts, run ≠ [] := by
  induction parts with
  | nil => intro run h; simp [roleRuns] at h
  | cons p ps ih =>
      intro run hrun
      cases h : roleRuns ps with
      | nil =>
          rw [roleRuns, h] at hrun
          simp at hrun
          simp [hrun]
      | cons r0 rest =>
          cases r0 with
          | nil => exact absurd rfl (ih [] (by rw [h]; exact List.mem_cons_self _ _))
          | cons q qs =>
              rw [roleRuns, h] at hrun
              by_cases hr : p.role = q.role
              · simp only [if_pos hr] at hrun
                rcases List.mem_cons.mp hrun with h1 | h1
                · simp [h1]
                · exact ih run (by rw [h]; exact List.mem_cons_of_mem _ h1)
              · simp only [if_neg hr] at hrun
                rcases List.mem_cons.mp hrun with h1 | h1
                · simp [h1]
                · exact ih run (by rw [h]; exact h1)

theorem roleRuns_append_const (run : List ProcessorPart) :
    ∀ (p0 : ProcessorPart) (r : String) (rest : List ProcessorPart),
      (∀ q ∈ p0 :: run, q.role = r) →
      (rest = [] ∨ ∃ p' ps', rest = p' :: ps' ∧ p'.role ≠ r) →
      roleRuns ((p0 :: run) ++ rest) = (p0 :: run) :: roleRuns rest := by
  induction run with
  | nil =>
      intro p0 r rest hrole hrest
      rcases hrest with h | ⟨p', ps', hr1, hr2⟩
      · subst h; simp [roleRuns]
      · subst hr1
        obtain ⟨qs, rest2, hform⟩ := roleRuns_cons_form p' ps'
        have hp0 : p0.role = r := hrole p0 (by simp)
        have hne : ¬ p0.role = p'.role := by
          rw [hp0]; exact fun hc => hr2 hc.symm
        show roleRuns (p0 :: p' :: ps') = [p0] :: roleRuns (p' :: ps')
        rw [roleRuns_cons, hform]
        simp [hne]
  | cons b run' ih =>
      intro p0 r rest hrole hrest
      have hb : b.role = r := hrole b (by simp)
      have hp0 : p0.role = r := hrole p0 (by simp)
      have htail := ih b r rest (fun q hq => by
        rcases List.mem_cons.mp hq with h1 | h1
        · rw [h1]; exact hb
        · exact hrole q (by simp [h1])) hrest
      show roleRuns (p0 :: ((b :: run') ++ rest)) = _
      rw [roleRuns_cons, htail]
      simp [hp0, hb]

theorem roleRuns_length (parts : List ProcessorPart) (h : parts ≠ []) :
    (roleRuns parts).length = 1 + roleBoundaries parts := by
  induction parts with
  | nil => exact absurd rfl h
  | cons p ps ih =>
      cases ps with
      | nil => simp [roleRuns, roleBoundaries]
      | cons q ps' =>
          obtain ⟨qs, rest, hform⟩ := roleRuns_cons_form q ps'
          have hlen := ih (by simp)
          have hb : roleBoundaries (p :: q :: ps') =
              (if p.role = q.role then 0 else 1) + roleBoundaries (q :: ps') := by
            simp only [roleBoundaries, List.zip_cons_cons, List.tail_cons,
              List.countP_cons]
            by_cases hr : p.role = q.role
            · simp [hr]
            · simp [hr]; omega
          rw [roleRuns_cons, hform]
          by_cases hr : p.role = q.role
          · simp only [if_pos hr]
            rw [hb]
            simp only [if_pos hr]
            rw [hform] at hlen
            simp only [List.length_cons] at hlen ⊢
            omega
          · simp only [if_neg hr]
            rw [hb]
            simp only [if_neg hr]
            rw [hform] at hlen
            simp only [List.length_cons] at hlen ⊢
            omega

theorem convLoop_runsMsgs (ps : List ProcessorPart) :
    ∀ (msgs : List LCMessage) (blocks : List ContentBlock) (r : String)
      (lp : ProcessorPart), blocks ≠ [] →
      (∀ p ∈ ps, (partToBlock p).isSome) →
      (convLoop ⟨msgs, blocks, some r, some lp⟩ ps).map
          (fun st => (flush st).messages) =
        some (msgs ++ runsMsgs blocks r lp ps) := by
  induction ps with
  | nil =>
      intro msgs blocks r lp hne _
      simp [convLoop, flush, hne, runsMsgs, mkMsg]
  | cons p ps ih =>
      intro msgs blocks r lp hne hsup
      have hblk : partToBlock p = some (blockOf p) :=
        partToBlock_eq_blockOf p (hsup p (by simp))
      have hsup' : ∀ q ∈ ps, (partToBlock q).isSome :=
        fun q hq => hsup q (by simp [hq])
      by_cases hpr : p.role = r
      · subst hpr
        have hrc : roleChanged (some p.role) p.role = false := by
          simp [roleChanged]
        simp only [convLoop, hblk, hrc, if_false, Bool.false_eq_true]
        rw [ih msgs (blocks ++ [blockOf p]) p.role p (by simp) hsup']
        simp [runsMsgs]
      · have hrc : roleChanged (some r) p.role = true := by
          simp [roleChanged]
          exact hpr
        simp only [convLoop, hblk, hrc, if_true]
        have hfl : flush ⟨msgs, blocks, some r, some lp⟩ =
            ⟨msgs ++ [mkMsg r blocks lp], [], some r, some lp⟩ := by
          simp [flush, hne, mkMsg]
        rw [hfl]
        have hstep := ih (msgs ++ [mkMsg r blocks lp]) [blockOf p] p.role p
          (by simp) hsup'
        simp only [List.nil_append]
        rw [hstep]
        simp [runsMsgs, hpr]

theorem specRunMessage_const (p0 : ProcessorPart) (run : List ProcessorPart)
    (r : String) (hrole : ∀ q ∈ p0 :: run, q.role = r)
    (hsup : ∀ q ∈ p0 :: run, (partToBlock q).isSome) :
    specRunMessage (p0 :: run) =
      some (mkMsg r ((p0 :: run).map blockOf) (run.getLastD p0)) := by
  simp only [specRunMessage]
  rw [filterMap_partToBlock_eq_map _ hsup]
  have hp0 : p0.role = r := hrole p0 (by simp)
  simp [mkMsg, hp0]

theorem runsMsgs_spec (ps : List ProcessorPart) :
    ∀ (run : List ProcessorPart) (p0 : ProcessorPart) (r : String),
      (∀ q ∈ p0 :: run, q.role = r) →
      (∀ q ∈ (p0 :: run) ++ ps, (partToBlock q).isSome) →
      runsMsgs ((p0 :: run).map blockOf) r (run.getLastD p0) ps =
        (roleRuns ((p0 :: run) ++ ps)).filterMap specRunMessage := by
  induction ps with
  | nil =>
      intro run p0 r hrole hsup
      rw [roleRuns_append_const run p0 r [] hrole (Or.inl rfl)]
      simp only [roleRuns, List.filterMap_cons, List.filterMap_nil]
      rw [specRunMessage_const p0 run r hrole
        (fun q hq => hsup q (by simp [List.mem_of_mem_head?]; simpa using hq))]
      simp [runsMsgs]
  | cons p ps' ih =>
      intro run p0 r hrole hsup
      by_cases hpr : p.role = r
      · subst hpr
        have hrole' : ∀ q ∈ p0 :: (run ++ [p]), q.role = p.role := by
          intro q hq
          rcases List.mem_cons.mp hq with h1 | h1
          · exact hrole q (by simp [h1])
          · rcases List.mem_append.mp h1 with h2 | h2
            · exact hrole q (by simp [h2])
            · rw [List.mem_singleton.mp h2]
        have hsup' : ∀ q ∈ (p0 :: (run ++ [p])) ++ ps',
            (partToBlock q).isSome := by
          intro q hq
          apply hsup q
          simp at hq ⊢
          tauto
        have key := ih (run ++ [p]) p0 p.role hrole' hsup'
        rw [List.getLastD_concat] at key
        have harr : (p0 :: (run ++ [p])) ++ ps' = (p0 :: run) ++ p :: ps' := by
          simp
        rw [harr] at key
        have hunf : runsMsgs (List.map blockOf (p0 :: run)) p.role
            (run.getLastD p0) (p :: ps') =
            runsMsgs (List.map blockOf (p0 :: run) ++ [blockOf p]) p.role p
              ps' := by
          simp [runsMsgs]
        rw [hunf, ← key]
        simp [List.map_append]
      · have hbad : ¬ (p.role = r) := hpr
        have hthis := ih [] p p.role (by
          intro q hq
          rw [List.mem_singleton.mp hq]) (by
          intro q hq
          apply hsup q
          simp at hq ⊢
          tauto)
        simp only [List.map_cons, List.map_nil, List.getLastD_nil,
          List.singleton_append] at hthis
        rw [roleRuns_append_const run p0 r (p :: ps') hrole
          (Or.inr ⟨p, ps', rfl, hbad⟩)]
        simp only [List.filterMap_cons]
        rw [specRunMessage_const p0 run r hrole (by
          intro q hq
          apply hsup q
          simp at hq ⊢
          tauto)]
        simp only [runsMsgs, if_neg hpr]
        rw [hthis]

theorem convert_eq_spec (parts : List ProcessorPart)
    (hsup : ∀ p ∈ parts, (partToBlock p).isSome) :
    convertToLangchainMessages parts = some (specMessages parts) := by
  cases parts with
  | nil => rfl
  | cons p ps =>
      have hblk : partToBlock p = some (blockOf p) :=
        partToBlock_eq_blockOf p (hsup p (by simp))
      have hrc : roleChanged none p.role = false := by
        simp [roleChanged]
      simp only [convertToLangchainMessages, convLoop, hblk, hrc, if_false,
        Bool.false_eq_true, List.nil_append]
      have hsup' : ∀ q ∈ ps, (partToBlock q).isSome :=
        fun q hq => hsup q (by simp [hq])
      have h1 := convLoop_runsMsgs ps [] [blockOf p] p.role p (by simp) hsup'
      rw [h1]
      have h2 := runsMsgs_spec ps [] p p.role (by
        intro q hq
        rw [List.mem_singleton.mp hq]) (by
        intro q hq
        apply hsup q
        simpa using hq)
      simp only [List.map_cons, List.map_nil, List.getLastD_nil,
        List.singleton_append] at h2
      rw [List.nil_append, h2]
      rfl

theorem b64Val_b64Char : ∀ n, n < 64 → b64Val (b64Char n) = n := by decide

theorem b64Char_ne_pad : ∀ n, n < 64 → b64Char n ≠ '=' := by decide

theorem b64_roundtrip : ∀ (bs : List Nat), (∀ x ∈ bs, x < 256) →
    b64decode (b64encode bs) = bs
  | [], _ => by simp [b64encode, b64decode]
  | [a], h => by
      have ha : a < 256 := h a (by simp)
      have h1 : a / 4 < 64 := by omega
      have h2 : a % 4 * 16 < 64 := by omega
      simp only [b64encode, b64decode]
      rw [b64Val_b64Char _ h1, b64Val_b64Char _ h2]
      have e : a / 4 * 4 + a % 4 * 16 / 16 = a := by omega
      rw [e]
      simp
  | [a, b], h => by
      have ha : a < 256 := h a (by simp)
      have hb : b < 256 := h b (by simp)
      have h1 : a / 4 < 64 := by omega
      have h2 : a % 4 * 16 + b / 16 < 64 := by omega
      have h3 : b % 16 * 4 < 64 := by omega
      simp only [b64encode, b64decode]
      rw [if_neg (b64Char_ne_pad _ h3)]
      rw [b64Val_b64Char _ h1, b64Val_b64Char _ h2, b64Val_b64Char _ h3]
      have e1 : (a / 4) * 4 + (a % 4 * 16 + b / 16) / 16 = a := by omega
      have e2 : (a % 4 * 16 + b / 16) % 16 * 16 + b % 16 * 4 / 4 = b := by
        omega
      rw [e1, e2]
      simp
  | a :: b :: c :: rest, h => by
      have ha : a < 256 := h a (by simp)
      have hb : b < 256 := h b (by simp)
      have hc : c < 256 := h c (by simp)
      have h1 : a / 4 < 64 := by omega
      have h2 : a % 4 * 16 + b / 16 < 64 := by omega
      have h3 : b % 16 * 4 + c / 64 < 64 := by omega
      have h4 : c % 64 < 64 := by omega
      have ih := b64_roundtrip rest (fun x hx => h x (by simp [hx]))
      simp only [b64encode, b64decode]
      rw [if_neg (b64Char_ne_pad _ h3), if_neg (b64Char_ne_pad _ h4)]
      rw [b64Val_b64Char _ h1, b64Val_b64Char _ h2, b64Val_b64Char _ h3,
        b64Val_b64Char _ h4]
      have e1 : (a / 4) * 4 + (a % 4 * 16 + b / 16) / 16 = a := by omega
      have e2 : (a % 4 * 16 + b / 16) % 16 * 16 + (b % 16 * 4 + c / 64) / 4 =
          b := by omega
      have e3 : (b % 16 * 4 + c / 64) % 4 * 64 + c % 64 = c := by omega
      rw [e1, e2, e3, ih]

theorem partToBlock_isSome_of_text (p : ProcessorPart)
    (h : is_text p.mimetype = true) : (partToBlock p).isSome := by
  simp [partToBlock, h]

theorem partToBlock_none_of_bad (p : ProcessorPart)
    (ht : is_text p.mimetype = false)
    (hbad : is_image p.mimetype = false ∨ p.bytes = []) :
    partToBlock p = none := by
  rcases hbad with h | h <;> simp [partToBlock, ht, h]

theorem getLast?_cons_getLastD {α : Type} (p : α) (ps : List α) :
    (p :: ps).getLast? = some (ps.getLastD p) := by
  induction ps generalizing p with
  | nil => rfl
  | cons q qs ih => rw [List.getLast?_cons_cons, ih, List.getLastD_cons]

theorem filterMap_specRun_cls (runs : List (List ProcessorPart))
    (h : ∀ run ∈ runs, run ≠ []) :
    (runs.filterMap specRunMessage).map LCMessage.cls =
      runs.map (fun run => roleClass (run.head?.map ProcessorPart.role)) := by
  induction runs with
  | nil => rfl
  | cons run rest ih =>
      cases run with
      | nil => exact absurd rfl (h [] (by simp))
      | cons q qs =>
          simp only [List.filterMap_cons, specRunMessage, List.map_cons,
            List.head?_cons, Option.map_some']
          rw [ih (fun r hr => h r (by simp [hr]))]

theorem filterMap_specRun_metadata (runs : List (List ProcessorPart))
    (h : ∀ run ∈ runs, run ≠ []) :
    (runs.filterMap specRunMessage).map LCMessage.metadata =
      runs.map (fun run => run.getLast?.map ProcessorPart.metadata) := by
  induction runs with
  | nil => rfl
  | cons run rest ih =>
      cases run with
      | nil => exact absurd rfl (h [] (by simp))
      | cons q qs =>
          simp only [List.filterMap_cons, specRunMessage, List.map_cons,
            getLast?_cons_getLastD, Option.map_some']
          rw [ih (fun r hr => h r (by simp [hr]))]

theorem specMessages_length (parts : List ProcessorPart) :
    (specMessages parts).length = (roleRuns parts).length := by
  have h := filterMap_specRun_cls (roleRuns parts) (roleRuns_ne_nil parts)
  have h1 : (specMessages parts).length =
      ((specMessages parts).map LCMessage.cls).length := by simp
  rw [h1, specMessages, h, List.length_map]

/-! ### Claim theorems -/

/-- C1: for a turn whose parts are all supported, the adapter crosses a
message-group boundary exactly at each adjacent pair of parts with
differing role values: the message list is one message per maximal run
of strictly consecutive identical roles (the unset role being its own
distinct value, and no boundary being forced before the very first
part), so there are exactly `1 + (number of adjacent role changes)`
messages. -/
theorem claim1_role_run_boundaries (parts : List ProcessorPart)
    (hsup : ∀ p ∈ parts, (partToBlock p).isSome) (hne : parts ≠ []) :
    convertToLangchainMessages parts = some (specMessages parts) ∧
    (specMessages parts).length = 1 + roleBoundaries parts := by
  refine ⟨convert_eq_spec parts hsup, ?_⟩
  rw [specMessages_length, roleRuns_length parts hne]

/-- Witness for C1: a turn whose first part has the unset role,
followed by two `user` parts: the unset role does not force a boundary
before the first part, but the change from unset to `user` does, giving
exactly two messages. -/
theorem claim1_witness :
    (convertToLangchainMessages
        [⟨"text/plain", "", "a", [], []⟩, ⟨"text/plain", "user", "b", [], []⟩,
          ⟨"text/plain", "user", "c", [], []⟩] =
      some (specMessages
        [⟨"text/plain", "", "a", [], []⟩, ⟨"text/plain", "user", "b", [], []⟩,
          ⟨"text/plain", "user", "c", [], []⟩]) ∧
    (specMessages
        [⟨"text/plain", "", "a", [], []⟩, ⟨"text/plain", "user", "b", [], []⟩,
          ⟨"text/plain", "user", "c", [], []⟩]).length =
      1 + roleBoundaries
        [⟨"text/plain", "", "a", [], []⟩, ⟨"text/plain", "user", "b", [], []⟩,
          ⟨"text/plain", "user", "c", [], []⟩]) ∧
    roleBoundaries
        [⟨"text/plain", "", "a", [], []⟩, ⟨"text/plain", "user", "b", [], []⟩,
          ⟨"text/plain", "user", "c", [], []⟩] = 1 :=
  ⟨claim1_role_run_boundaries _ (by decide) (by decide), by decide⟩

/-- C2: a turn containing any part that is classifiable as neither text
nor image, or an image part with empty/absent bytes, makes `call` fail
with the unsupported-input error (`none`) before any output part is
emitted - and, since this holds for every model `llm` whatsoever, the
model is never consulted; the positions of the other parts are
irrelevant. -/
theorem claim2_unsupported_aborts (llm : LLM) (si : String)
    (pt : Option (List LCMessage → String)) (parts : List ProcessorPart)
    (p : ProcessorPart) (hp : p ∈ parts)
    (htext : is_text p.mimetype = false)
    (hbad : is_image p.mimetype = false ∨ p.bytes = []) :
    LangChainModel.call ⟨llm, si, pt⟩ parts = none ∧
    convertToLangchainMessages parts = none := by
  have hnone : partToBlock p = none := partToBlock_none_of_bad p htext hbad
  have hloop : convLoop ⟨[], [], none, none⟩ parts = none :=
    convLoop_none parts ⟨[], [], none, none⟩ p hp hnone
  have hconv : convertToLangchainMessages parts = none := by
    rw [convertToLangchainMessages, hloop]; rfl
  exact ⟨by rw [LangChainModel.call, builtMessages, hconv]; rfl, hconv⟩

/-- Witness for C2: a turn holding a supported text part, then an
`application/octet-stream` part, then another text part, is rejected
whole - `call` yields no part even for a model that would emit one. -/
theorem claim2_witness :
    LangChainModel.call
        ⟨⟨none, "FakeChat", fun _ => [⟨"unreached"⟩]⟩, "", none⟩
        [⟨"text/plain", "user", "a", [], []⟩,
          ⟨"application/octet-stream", "user", "", [1, 2], []⟩,
          ⟨"text/plain", "user", "b", [], []⟩] = none ∧
    convertToLangchainMessages
        [⟨"text/plain", "user", "a", [], []⟩,
          ⟨"application/octet-stream", "user", "", [1, 2], []⟩,
          ⟨"text/plain", "user", "b", [], []⟩] = none :=
  claim2_unsupported_aborts _ _ _ _
    ⟨"application/octet-stream", "user", "", [1, 2], []⟩
    (by decide) (by decide) (by decide)

/-- C3: for a turn of text-classified parts, the adapter produces one
message per maximal run of consecutive same-role parts, its class given
by the run's role under the mapping `system` to System, `model` to AI,
anything else (including `user` and unset) to Human. -/
theorem claim3_text_turn_classes (parts : List ProcessorPart)
    (hsup : ∀ p ∈ parts, is_text p.mimetype = true) :
    ∃ msgs, convertToLangchainMessages parts = some msgs ∧
      msgs = (roleRuns parts).filterMap specRunMessage ∧
      msgs.map LCMessage.cls =
        (roleRuns parts).map
          (fun run => roleClass (run.head?.map ProcessorPart.role)) ∧
      roleClass (some "system") = MessageClass.system ∧
      roleClass (some "model") = MessageClass.ai ∧
      ∀ r : String, r ≠ "system" → r ≠ "model" →
        roleClass (some r) = MessageClass.human := by
  have hsup' : ∀ p ∈ parts, (partToBlock p).isSome :=
    fun p hp => partToBlock_isSome_of_text p (hsup p hp)
  refine ⟨specMessages parts, convert_eq_spec parts hsup', rfl, ?_, by decide,
    by decide, ?_⟩
  · exact filterMap_specRun_cls (roleRuns parts) (roleRuns_ne_nil parts)
  · intro r h1 h2
    simp [roleClass, h1, h2]

/-- Witness for C3: a text turn with roles `[user, user, model, user]`
produces exactly 3 messages with classes `[Human, AI, Human]`. -/
theorem claim3_witness :
    (∃ msgs, convertToLangchainMessages
        [⟨"text/plain", "user", "a", [], []⟩,
          ⟨"text/plain", "user", "b", [], []⟩,
          ⟨"text/plain", "model", "c", [], []⟩,
          ⟨"text/plain", "user", "d", [], []⟩] = some msgs ∧
      msgs = (roleRuns
          [⟨"text/plain", "user", "a", [], []⟩,
            ⟨"text/plain", "user", "b", [], []⟩,
            ⟨"text/plain", "model", "c", [], []⟩,
            ⟨"text/plain", "user", "d", [], []⟩]).filterMap specRunMessage ∧
      msgs.map LCMessage.cls =
        (roleRuns
          [⟨"text/plain", "user", "a", [], []⟩,
            ⟨"text/plain", "user", "b", [], []⟩,
            ⟨"text/plain", "model", "c", [], []⟩,
            ⟨"text/plain", "user", "d", [], []⟩]).map
          (fun run => roleClass (run.head?.map ProcessorPart.role)) ∧
      roleClass (some "system") = MessageClass.system ∧
      roleClass (some "model") = MessageClass.ai ∧
      ∀ r : String, r ≠ "system" → r ≠ "model" →
        roleClass (some r) = MessageClass.human) ∧
    (convertToLangchainMessages
        [⟨"text/plain", "user", "a", [], []⟩,
          ⟨"text/plain", "user", "b", [], []⟩,
          ⟨"text/plain", "model", "c", [], []⟩,
          ⟨"text/plain", "user", "d", [], []⟩]).map
      (fun l => l.map LCMessage.cls) =
      some [MessageClass.human, MessageClass.ai, MessageClass.human] :=
  ⟨claim3_text_turn_classes _ (by decide), by decide⟩

/-- C4: `flush` finalizes the pending group into exactly one appended
message whose content is a bare string precisely when the group is a
single text block, and is otherwise the group's block list in its
original order. -/
theorem claim4_collapse (st : ConvState) (h : st.content_parts ≠ []) :
    ∃ msg, (flush st).messages = st.messages ++ [msg] ∧
      ((∃ t, st.content_parts = [ContentBlock.text t] ∧
          msg.content = MessageContent.str t) ∨
       ((∀ t, st.content_parts ≠ [ContentBlock.text t]) ∧
          msg.content = MessageContent.blocks st.content_parts)) := by
  refine ⟨{ cls := roleClass st.last_role,
            content := collapseBlocks st.content_parts,
            metadata := some (match st.last_part with
              | some p => p.metadata
              | none => []) }, ?_, ?_⟩
  · simp [flush, h]
  · rcases collapseBlocks_cases st.content_parts with ⟨t, ht, hc⟩ | ⟨hne2, hc⟩
    · exact Or.inl ⟨t, ht, hc⟩
    · exact Or.inr ⟨hne2, hc⟩

/-- Witness for C4: flushing a two-block group (text then image) keeps
the block list, while a lone-text-block group collapses to a bare
string. -/
theorem claim4_witness :
    (∃ msg, (flush ⟨[], [ContentBlock.text "a", ContentBlock.imageUrl "u"],
        some "user", none⟩).messages = [] ++ [msg] ∧
      ((∃ t, [ContentBlock.text "a", ContentBlock.imageUrl "u"] =
          [ContentBlock.text t] ∧ msg.content = MessageContent.str t) ∨
       ((∀ t, [ContentBlock.text "a", ContentBlock.imageUrl "u"] ≠
          [ContentBlock.text t]) ∧
        msg.content = MessageContent.blocks
          [ContentBlock.text "a", ContentBlock.imageUrl "u"]))) ∧
    (flush ⟨[], [ContentBlock.text "a"], some "user", none⟩).messages =
      [⟨MessageClass.human, MessageContent.str "a", some []⟩] :=
  ⟨claim4_collapse ⟨[], [ContentBlock.text "a", ContentBlock.imageUrl "u"],
      some "user", none⟩ (by decide), by decide⟩

/-- C5: for each chunk the model's stream yields, `call` emits exactly
one output part, in arrival order (a plain `map`, so no reordering,
merging or deduplication), with MIME type `text/plain`, role `model`,
text equal to the chunk's content, and metadata `model` set to the
model's declared name attribute when present, else its type name - the
same identifier for every part of the invocation. -/
theorem claim5_stream_one_to_one (m : LangChainModel)
    (parts : List ProcessorPart) (msgs : List LCMessage)
    (h : builtMessages m parts = some msgs) :
    LangChainModel.call m parts =
      some ((m.llm.astream (mkPayload m msgs)).map (chunkPart m)) ∧
    (∀ ch : Chunk, chunkPart m ch =
      ⟨"text/plain", "model", ch.content, [], [("model", modelId m.llm)]⟩) ∧
    (m.llm.model = none → modelId m.llm = m.llm.typeName) ∧
    (∀ n, m.llm.model = some n → modelId m.llm = n) := by
  refine ⟨?_, fun ch => rfl, ?_, ?_⟩
  · simp only [LangChainModel.call, h, Option.map_some']
  · intro hn; rw [modelId, hn]
  · intro n hn; rw [modelId, hn]

/-- Witness for C5: a model yielding chunks `"Hello"` then `" world"`
makes the adapter emit exactly those two parts, in order, both with
role `model` and the same `model` metadata value. -/
theorem claim5_witness :
    (LangChainModel.call
        ⟨⟨some "gpt-x", "FakeChat", fun _ => [⟨"Hello"⟩, ⟨" world"⟩]⟩, "",
          none⟩ [] =
      some ((LLM.astream
          ⟨some "gpt-x", "FakeChat", fun _ => [⟨"Hello"⟩, ⟨" world"⟩]⟩
          (mkPayload
            ⟨⟨some "gpt-x", "FakeChat", fun _ => [⟨"Hello"⟩, ⟨" world"⟩]⟩,
              "", none⟩ [])).map
        (chunkPart
          ⟨⟨some "gpt-x", "FakeChat", fun _ => [⟨"Hello"⟩, ⟨" world"⟩]⟩, "",
            none⟩)) ∧
      (∀ ch : Chunk, chunkPart
          ⟨⟨some "gpt-x", "FakeChat", fun _ => [⟨"Hello"⟩, ⟨" world"⟩]⟩, "",
            none⟩ ch =
        ⟨"text/plain", "model", ch.content, [],
          [("model", modelId
            ⟨some "gpt-x", "FakeChat", fun _ => [⟨"Hello"⟩, ⟨" world"⟩]⟩)]⟩) ∧
      (LLM.model ⟨some "gpt-x", "FakeChat", fun _ => [⟨"Hello"⟩, ⟨" world"⟩]⟩
          = none →
        modelId ⟨some "gpt-x", "FakeChat", fun _ => [⟨"Hello"⟩, ⟨" world"⟩]⟩
          = "FakeChat") ∧
      (∀ n, LLM.model
          ⟨some "gpt-x", "FakeChat", fun _ => [⟨"Hello"⟩, ⟨" world"⟩]⟩ =
            some n →
        modelId ⟨some "gpt-x", "FakeChat", fun _ => [⟨"Hello"⟩, ⟨" world"⟩]⟩
          = n)) ∧
    LangChainModel.call
        ⟨⟨some "gpt-x", "FakeChat", fun _ => [⟨"Hello"⟩, ⟨" world"⟩]⟩, "",
          none⟩ [] =
      some [⟨"text/plain", "model", "Hello", [], [("model", "gpt-x")]⟩,
        ⟨"text/plain", "model", " world", [], [("model", "gpt-x")]⟩] :=
  ⟨claim5_stream_one_to_one _ [] [] rfl, rfl⟩

/-- C6: when a non-empty system instruction is configured, the message
list handed to the model always starts with a System Message holding
exactly that string, every message converted from the turn itself
(including any system-role message) following it in order; when the
configured instruction is empty, nothing is inserted. -/
theorem claim6_system_instruction_first (m : LangChainModel)
    (parts : List ProcessorPart) (msgs0 : List LCMessage)
    (h : convertToLangchainMessages parts = some msgs0) :
    (m.system_instruction ≠ "" →
      builtMessages m parts =
        some (⟨MessageClass.system,
          MessageContent.str m.system_instruction, none⟩ :: msgs0)) ∧
    (m.system_instruction = "" → builtMessages m parts = some msgs0) := by
  constructor
  · intro hsi
    simp only [builtMessages, h, Option.map_some']
    rw [if_pos hsi]
  · intro hsi
    simp only [builtMessages, h, Option.map_some']
    rw [if_neg (by simp [hsi])]

/-- Witness for C6: with `system_instruction = "Be terse."` and a turn
starting with a `system`-role part, the built message list starts with
the configured System Message and keeps the turn's own system message
right after it. -/
theorem claim6_witness :
    (("Be terse." ≠ "" →
      builtMessages
          ⟨⟨none, "FakeChat", fun _ => []⟩, "Be terse.", none⟩
          [⟨"text/plain", "system", "hi", [], []⟩] =
        some (⟨MessageClass.system, MessageContent.str "Be terse.", none⟩ ::
          [⟨MessageClass.system, MessageContent.str "hi", some []⟩])) ∧
    (("Be terse." : String) = "" →
      builtMessages
          ⟨⟨none, "FakeChat", fun _ => []⟩, "Be terse.", none⟩
          [⟨"text/plain", "system", "hi", [], []⟩] =
        some [⟨MessageClass.system, MessageContent.str "hi", some []⟩])) ∧
    builtMessages
        ⟨⟨none, "FakeChat", fun _ => []⟩, "Be terse.", none⟩
        [⟨"text/plain", "system", "hi", [], []⟩] =
      some [⟨MessageClass.system, MessageContent.str "Be terse.", none⟩,
        ⟨MessageClass.system, MessageContent.str "hi", some []⟩] :=
  ⟨claim6_system_instruction_first
    ⟨⟨none, "FakeChat", fun _ => []⟩, "Be terse.", none⟩
    [⟨"text/plain", "system", "hi", [], []⟩]
    [⟨MessageClass.system, MessageContent.str "hi", some []⟩] rfl, rfl⟩

/-- C7: an image-classified part with non-empty bytes converts to the
block `image_url` with URL `data:<mimetype>;base64,<b64>` where `<b64>`
is the standard base64 encoding of the part's exact bytes, and decoding
that encoding reproduces the bytes exactly. -/
theorem claim7_image_base64 (p : ProcessorPart)
    (himg : is_image p.mimetype = true) (hne : p.bytes ≠ [])
    (hbytes : ∀ x ∈ p.bytes, x < 256) :
    partToBlock p = some (ContentBlock.imageUrl
      ("data:" ++ p.mimetype ++ ";base64," ++ b64encodeStr p.bytes)) ∧
    b64decode (b64encode p.bytes) = p.bytes := by
  have ht : is_text p.mimetype = false := is_text_eq_false_of_is_image _ himg
  refine ⟨?_, b64_roundtrip p.bytes hbytes⟩
  simp [partToBlock, ht, himg, hne]

/-- Witness for C7: a PNG part with bytes `0x89 P N G` yields the block
`data:image/png;base64,iVBORw==`, and decoding recovers the bytes. -/
theorem claim7_witness :
    (partToBlock ⟨"image/png", "user", "", [137, 80, 78, 71], []⟩ =
      some (ContentBlock.imageUrl
        ("data:" ++ "image/png" ++ ";base64," ++
          b64encodeStr [137, 80, 78, 71])) ∧
      b64decode (b64encode [137, 80, 78, 71]) = [137, 80, 78, 71]) ∧
    b64encodeStr [137, 80, 78, 71] = "iVBORw==" :=
  ⟨claim7_image_base64 ⟨"image/png", "user", "", [137, 80, 78, 71], []⟩
    (by decide) (by decide) (by decide), by decide⟩

/-- C8: every finalized message carries as its metadata attachment the
metadata mapping of the last part of its run - the last Content Part
that contributed to it - rather than any merge of the contributing
parts' metadata. -/
theorem claim8_metadata_last (parts : List ProcessorPart)
    (hsup : ∀ p ∈ parts, (partToBlock p).isSome) :
    ∃ msgs, convertToLangchainMessages parts = some msgs ∧
      msgs.map LCMessage.metadata =
        (roleRuns parts).map
          (fun run => run.getLast?.map ProcessorPart.metadata) :=
  ⟨specMessages parts, convert_eq_spec parts hsup,
    filterMap_specRun_metadata (roleRuns parts) (roleRuns_ne_nil parts)⟩

/-- Witness for C8: two same-role parts with different metadata coalesce
into one message whose metadata is exactly the second part's mapping,
not a merge. -/
theorem claim8_witness :
    (∃ msgs, convertToLangchainMessages
        [⟨"text/plain", "user", "a", [], [("k1", "v1")]⟩,
          ⟨"text/plain", "user", "b", [], [("k2", "v2")]⟩] = some msgs ∧
      msgs.map LCMessage.metadata =
        (roleRuns
          [⟨"text/plain", "user", "a", [], [("k1", "v1")]⟩,
            ⟨"text/plain", "user", "b", [], [("k2", "v2")]⟩]).map
          (fun run => run.getLast?.map ProcessorPart.metadata)) ∧
    (convertToLangchainMessages
        [⟨"text/plain", "user", "a", [], [("k1", "v1")]⟩,
          ⟨"text/plain", "user", "b", [], [("k2", "v2")]⟩]).map
      (fun l => l.map LCMessage.metadata) =
      some [some [("k2", "v2")]] :=
  ⟨claim8_metadata_last _ (by decide), by decide⟩

/-- C10: an empty turn raises no error of the adapter's own: the model
is still invoked, with an empty message list (or only the configured
System Message when a non-empty system instruction is set), and the
model's chunks are streamed as usual, one part per chunk. -/
theorem claim10_empty_turn (m : LangChainModel) :
    builtMessages m [] =
      some (if m.system_instruction ≠ "" then
        [⟨MessageClass.system, MessageContent.str m.system_instruction,
          none⟩]
      else []) ∧
    LangChainModel.call m [] =
      some ((m.llm.astream (mkPayload m
        (if m.system_instruction ≠ "" then
          [⟨MessageClass.system, MessageContent.str m.system_instruction,
            none⟩]
        else []))).map (chunkPart m)) := by
  have h1 : builtMessages m [] =
      some (if m.system_instruction ≠ "" then
        [⟨MessageClass.system, MessageContent.str m.system_instruction,
          none⟩]
      else []) := rfl
  exact ⟨h1, by simp only [LangChainModel.call, h1, Option.map_some']⟩

end LangchainAdapter
